import Mathlib

/-!
Verification of the object-storage and pack-codec core of the `mega`
repository against its natural-language specification.

The embedding is shallow: byte streams become `List Nat` (each element a
byte below 256) consumed from the head, `io::Result` becomes `Except`,
and `u64` arithmetic is `Nat` arithmetic reduced modulo `2 ^ 64` where the
source can wrap.
-/

namespace Mega

/-! ## Pack varint primitives (mercury/src/internal/pack/utils.rs) -/

/-- Outcomes of the fallible byte-reading primitives: `read_exact` hitting
the end of the stream, and the explicit `InvalidData, "VarInt too long"`
error of `read_varint_le`. -/
inductive ReadError where
  | truncatedStream
  | varIntOverflow
  deriving DecidableEq, Repr

/-- `read_byte_and_check_continuation`: reads one byte, returns its low
7 bits and whether the most significant bit is set, together with the rest
of the stream. -/
def read_byte_and_check_continuation :
    List Nat → Except ReadError ((Nat × Bool) × List Nat)
  | [] => .error .truncatedStream
  | b :: rest => .ok ((b.land 127, decide (128 ≤ b)), rest)

/-- The loop of `read_varint_le`:  state `(value, shift, offset)`;
each iteration reads one byte, errors when `shift > 63`, otherwise ors the
byte's low 7 bits into `value` at `shift` (u64 wrap) and either stops
(high bit clear) or continues with `shift + 7`. -/
def read_varint_le_loop :
    List Nat → Nat → Nat → Nat → Except ReadError (Nat × Nat)
  | [], _, _, _ => .error .truncatedStream
  | b :: rest, value, shift, offset =>
    if shift > 63 then
      .error .varIntOverflow
    else
      let byteValue := b.land 127
      let value' := value.lor ((byteValue <<< shift) % 2 ^ 64)
      if b.land 128 = 0 then
        .ok (value', offset + 1)
      else
        read_varint_le_loop rest value' (shift + 7) (offset + 1)

/-- `read_varint_le`: decodes a little-endian base-128 varint, returning
the decoded value and the number of bytes consumed. -/
def read_varint_le (input : List Nat) : Except ReadError (Nat × Nat) :=
  read_varint_le_loop input 0 0 0

/-- The `while more_bytes` loop of `read_type_and_varint_size`: while the
previous byte's continuation flag is set, read a byte, or its low 7 bits
into `size` at `shift` (u64 wrap), advance `shift` by 7 and `offset` by 1. -/
def read_type_size_loop :
    Bool → List Nat → Nat → Nat → Nat → Except ReadError (Nat × Nat)
  | false, _, size, _, offset => .ok (size, offset)
  | true, [], _, _, _ => .error .truncatedStream
  | true, b :: rest, size, shift, offset =>
    read_type_size_loop (decide (128 ≤ b)) rest
      (size.lor (((b.land 127) <<< shift) % 2 ^ 64)) (shift + 7) (offset + 1)

/-- `read_type_and_varint_size`: the first byte yields 3 type bits
(bits 4..6) and the low 4 size bits; while the continuation bit is set,
subsequent 7-bit groups are or-ed into the size at shifts 4, 11, 18, …
Returns `(type_bits, size, offset)` with `offset` incremented once per
byte consumed. -/
def read_type_and_varint_size (input : List Nat) (offset : Nat) :
    Except ReadError (Nat × Nat × Nat) :=
  match read_byte_and_check_continuation input with
  | .error e => .error e
  | .ok ((first_byte, continuation), rest) =>
    let offset' := offset + 1
    let type_bits := (first_byte.land 0x70) >>> 4
    let size := first_byte.land 0x0F
    match read_type_size_loop continuation rest size 4 offset' with
    | .error e => .error e
    | .ok (size', offset'') => .ok (type_bits, size', offset'')

/-- Specification-side value of a little-endian base-128 varint: each byte
contributes its low 7 bits at shifts 0, 7, 14, … -/
def varint_value_spec : List Nat → Nat
  | [] => 0
  | b :: rest => b.land 127 + 128 * varint_value_spec rest

/-- A well-formed varint byte sequence: nonempty, every byte but the last
has its continuation (high) bit set, and the last byte has it clear. -/
def varint_wf : List Nat → Prop
  | [] => False
  | [b] => b.land 128 = 0
  | b :: rest => b.land 128 ≠ 0 ∧ varint_wf rest

instance varint_wf_dec : (bs : List Nat) → Decidable (varint_wf bs)
  | [] => isFalse (fun h => h)
  | [b] => inferInstanceAs (Decidable (b.land 128 = 0))
  | _ :: r :: rs => @instDecidableAnd _ _ _ (varint_wf_dec (r :: rs))

instance {ε α : Type} [DecidableEq ε] [DecidableEq α] : DecidableEq (Except ε α)
  | .error a, .error b =>
    match decEq a b with
    | isTrue h => isTrue (congrArg Except.error h)
    | isFalse h => isFalse (fun he => h (Except.error.inj he))
  | .ok a, .ok b =>
    match decEq a b with
    | isTrue h => isTrue (congrArg Except.ok h)
    | isFalse h => isFalse (fun he => h (Except.ok.inj he))
  | .error _, .ok _ => isFalse Except.noConfusion
  | .ok _, .error _ => isFalse Except.noConfusion

/-- Or-ing a value shifted left by `n` into a value below `2 ^ n` is plain
addition: the two operands occupy disjoint bit ranges. -/
theorem lor_shiftLeft_eq_add (a b n : Nat) (h : a < 2 ^ n) :
    a.lor (b <<< n) = a + b * 2 ^ n := by
  show a ||| b <<< n = a + b * 2 ^ n
  calc a ||| b <<< n = b <<< n ||| a := Nat.lor_comm _ _
    _ = 2 ^ n * b ||| a := by rw [Nat.shiftLeft_eq, mul_comm]
    _ = 2 ^ n * b + a := (Nat.mul_add_lt_is_or h b).symm
    _ = a + b * 2 ^ n := by ring

/-- On a successful decode starting at shift `7 * k`, the reported byte
count never exceeds `offset + (10 - k)`. -/
theorem read_varint_le_loop_ok_le (bs : List Nat) :
    ∀ value k offset v n, read_varint_le_loop bs value (7 * k) offset = .ok (v, n) →
      n ≤ offset + (10 - k) := by
  induction bs with
  | nil => intro value k offset v n h; simp [read_varint_le_loop] at h
  | cons b rest ih =>
    intro value k offset v n h
    rw [read_varint_le_loop] at h
    by_cases h63 : 7 * k > 63
    · rw [if_pos h63] at h; exact absurd h (by simp)
    · rw [if_neg h63] at h
      dsimp only at h
      have hk : k ≤ 9 := by omega
      by_cases hb : b.land 128 = 0
      · rw [if_pos hb] at h
        have h2 : offset + 1 = n := congrArg Prod.snd (Except.ok.inj h)
        omega
      · rw [if_neg hb] at h
        have h7 : 7 * k + 7 = 7 * (k + 1) := by ring
        rw [h7] at h
        have := ih _ (k + 1) (offset + 1) v n h
        omega

/-- When the first `10 - k` bytes all carry the continuation bit and at
least `11 - k` bytes remain, the decode starting at shift `7 * k` fails
with `VarIntOverflow`. -/
theorem read_varint_le_loop_overflow (bs : List Nat) :
    ∀ value k offset, k ≤ 10 → 11 - k ≤ bs.length →
      (∀ b ∈ bs.take (10 - k), b.land 128 ≠ 0) →
      read_varint_le_loop bs value (7 * k) offset = .error .varIntOverflow := by
  induction bs with
  | nil => intro value k offset hk hlen _; simp at hlen; omega
  | cons b rest ih =>
    intro value k offset hk hlen hcont
    rw [read_varint_le_loop]
    by_cases h63 : 7 * k > 63
    · rw [if_pos h63]
    · rw [if_neg h63]
      have hk9 : k ≤ 9 := by omega
      have htk : 10 - k = (9 - k) + 1 := by omega
      rw [htk, List.take_succ_cons] at hcont
      have hb : b.land 128 ≠ 0 := hcont b (List.mem_cons_self _ _)
      rw [if_neg hb]
      have h7 : 7 * k + 7 = 7 * (k + 1) := by ring
      rw [h7]
      apply ih _ (k + 1) (offset + 1) (by omega) (by simp at hlen ⊢; omega)
      intro b' hb'
      exact hcont b' (List.mem_cons_of_mem _ (by simpa [show 10 - (k + 1) = 9 - k by omega] using hb'))

/-- On a well-formed varint with no bit truncation
(`shift + 7 * bs.length ≤ 64`) and with the accumulator below `2 ^ shift`,
the loop decodes the base-128 value of the bytes at `shift` and consumes
exactly `bs.length` bytes. -/
theorem read_varint_le_loop_decode (bs : List Nat) :
    ∀ value shift offset, varint_wf bs → shift + 7 * bs.length ≤ 64 →
      value < 2 ^ shift →
      read_varint_le_loop bs value shift offset =
        .ok (value + varint_value_spec bs * 2 ^ shift, offset + bs.length) := by
  induction bs with
  | nil => intro _ _ _ hwf _ _; exact absurd hwf (fun h => h)
  | cons b rest ih =>
    intro value shift offset hwf hlen hval
    rw [read_varint_le_loop]
    have h63 : ¬ shift > 63 := by simp [List.length] at hlen; omega
    rw [if_neg h63]
    dsimp only
    have hb7 : b.land 127 < 128 := Nat.lt_succ_of_le (Nat.and_le_right)
    have hshift : (b.land 127) <<< shift < 2 ^ 64 := by
      rw [Nat.shiftLeft_eq]
      calc b.land 127 * 2 ^ shift < 128 * 2 ^ shift :=
            (Nat.mul_lt_mul_right (Nat.two_pow_pos shift)).mpr hb7
        _ = 2 ^ (shift + 7) := by rw [pow_add]; ring
        _ ≤ 2 ^ 64 := Nat.pow_le_pow_right (by norm_num) (by simp [List.length] at hlen; omega)
    rw [Nat.mod_eq_of_lt hshift, lor_shiftLeft_eq_add _ _ _ hval]
    have hval' : value + b.land 127 * 2 ^ shift < 2 ^ (shift + 7) := by
      calc value + b.land 127 * 2 ^ shift < 2 ^ shift + 127 * 2 ^ shift := by
            have := Nat.mul_le_mul_right (2 ^ shift) (Nat.lt_succ_iff.mp hb7)
            omega
        _ = 2 ^ (shift + 7) := by rw [pow_add]; ring
    cases rest with
    | nil =>
      have hb : b.land 128 = 0 := hwf
      rw [if_pos hb]
      simp [varint_value_spec]
    | cons r rs =>
      obtain ⟨hb, hwf'⟩ := hwf
      rw [if_neg hb]
      rw [ih _ (shift + 7) (offset + 1) hwf' (by simp [List.length] at hlen ⊢; omega) hval']
      refine congrArg Except.ok ?_
      simp only [Prod.mk.injEq]
      refine ⟨?_, ?_⟩
      · simp only [varint_value_spec]
        rw [pow_add]
        ring
      · simp only [List.length]
        omega

end Mega

namespace Mega

set_option maxRecDepth 2048 in
/-- For bytes, the low-128 bit of `land` agrees with the `128 ≤ b` test
used by `read_byte_and_check_continuation`. -/
theorem byte_msb (b : Nat) (h : b < 256) : b.land 128 = 0 ↔ b < 128 := by
  revert h
  revert b
  decide

set_option maxRecDepth 2048 in
/-- For bytes, `land 127` is reduction mod 128 and the `128 ≤ b` test is
bit 7. -/
theorem byte_low_bits (b : Nat) (h : b < 256) :
    b.land 127 = b % 128 ∧ decide (128 ≤ b) = b.testBit 7 := by
  revert h
  revert b
  decide

set_option maxRecDepth 2048 in
/-- For bytes, the type bits and size seed extracted from the low 7 bits
of the first header byte are its bits 4..6 and its low 4 bits. -/
theorem byte_type_bits (b : Nat) (h : b < 256) :
    ((b.land 127).land 0x70) >>> 4 = b / 16 % 8 ∧ (b.land 127).land 0x0F = b % 16 := by
  revert h
  revert b
  decide

/-- On a well-formed continuation-byte sequence of bytes, with no bit
truncation and the size accumulator below `2 ^ shift`, the header size
loop folds the base-128 value of the bytes in at `shift` and advances the
offset once per byte. -/
theorem read_type_size_loop_decode (bs : List Nat) :
    ∀ size shift offset, varint_wf bs → (∀ b ∈ bs, b < 256) →
      shift + 7 * bs.length ≤ 64 → size < 2 ^ shift →
      read_type_size_loop true bs size shift offset =
        .ok (size + varint_value_spec bs * 2 ^ shift, offset + bs.length) := by
  induction bs with
  | nil => intro _ _ _ hwf _ _ _; exact absurd hwf (fun h => h)
  | cons b rest ih =>
    intro size shift offset hwf hrange hlen hval
    have hb256 : b < 256 := hrange b (List.mem_cons_self _ _)
    rw [read_type_size_loop]
    have hb7 : b.land 127 < 128 := Nat.lt_succ_of_le (Nat.and_le_right)
    have hshift : (b.land 127) <<< shift < 2 ^ 64 := by
      rw [Nat.shiftLeft_eq]
      calc b.land 127 * 2 ^ shift < 128 * 2 ^ shift :=
            (Nat.mul_lt_mul_right (Nat.two_pow_pos shift)).mpr hb7
        _ = 2 ^ (shift + 7) := by rw [pow_add]; ring
        _ ≤ 2 ^ 64 := Nat.pow_le_pow_right (by norm_num) (by simp [List.length] at hlen; omega)
    rw [Nat.mod_eq_of_lt hshift, lor_shiftLeft_eq_add _ _ _ hval]
    have hval' : size + b.land 127 * 2 ^ shift < 2 ^ (shift + 7) := by
      calc size + b.land 127 * 2 ^ shift < 2 ^ shift + 127 * 2 ^ shift := by
            have := Nat.mul_le_mul_right (2 ^ shift) (Nat.lt_succ_iff.mp hb7)
            omega
        _ = 2 ^ (shift + 7) := by rw [pow_add]; ring
    cases rest with
    | nil =>
      have hb : b.land 128 = 0 := hwf
      have : ¬ 128 ≤ b := by have := (byte_msb b hb256).mp hb; omega
      rw [decide_eq_false this, read_type_size_loop]
      simp [varint_value_spec]
    | cons r rs =>
      obtain ⟨hb, hwf'⟩ := hwf
      have : 128 ≤ b := by
        by_contra hlt
        exact hb ((byte_msb b hb256).mpr (by omega))
      rw [decide_eq_true this]
      rw [ih _ (shift + 7) (offset + 1) hwf'
        (fun b' hb' => hrange b' (List.mem_cons_of_mem _ hb'))
        (by simp [List.length] at hlen ⊢; omega) hval']
      refine congrArg Except.ok ?_
      simp only [Prod.mk.injEq]
      refine ⟨?_, ?_⟩
      · simp only [varint_value_spec]
        rw [pow_add]
        ring
      · simp only [List.length]
        omega

end Mega

namespace Mega

/-- C1: `read_varint_le` decodes at most ten bytes: any successful decode
consumes at most ten bytes, and as soon as an 11th continuation byte is
required (the first ten bytes all carry the continuation bit and an
eleventh byte is present) it fails with `VarIntOverflow`; the shift bound
is checked before the shift is applied, so no value needing more than 63
bits of shift is ever decoded. -/
theorem C1_read_varint_le_overflow_guard (input : List Nat) :
    (∀ v n, read_varint_le input = .ok (v, n) → n ≤ 10) ∧
    (11 ≤ input.length → (∀ b ∈ input.take 10, b.land 128 ≠ 0) →
      read_varint_le input = .error .varIntOverflow) := by
  constructor
  · intro v n h
    have := read_varint_le_loop_ok_le input 0 0 0 v n h
    omega
  · intro hlen hcont
    exact read_varint_le_loop_overflow input 0 0 0 (by omega) (by omega) hcont

/-- Witness for C1 at a concrete input: ten continuation bytes followed by
an eleventh byte overflow. -/
theorem C1_witness :
    read_varint_le (List.replicate 10 0x80 ++ [0x01]) = .error .varIntOverflow :=
  (C1_read_varint_le_overflow_guard _).2 (by decide) (by decide)

/-- C2: `read_varint_le` decodes a little-endian base-128 varint — each
byte contributes its low 7 bits at shifts 0, 7, 14, … and a clear high bit
terminates — and on `[0x85, 0x01]` it returns `(133, 2)`. -/
theorem C2_read_varint_le_decodes :
    read_varint_le [0x85, 0x01] = .ok (133, 2) ∧
    ∀ bs, varint_wf bs → bs.length ≤ 9 →
      read_varint_le bs = .ok (varint_value_spec bs, bs.length) := by
  refine ⟨by decide, ?_⟩
  intro bs hwf hlen
  have := read_varint_le_loop_decode bs 0 0 0 hwf (by omega) (by norm_num)
  simpa using this

/-- Witness for C2 at a concrete input: the single byte `0x05` decodes to
its base-128 value in one byte. -/
theorem C2_witness :
    read_varint_le [0x05] = .ok (varint_value_spec [0x05], [0x05].length) :=
  C2_read_varint_le_decodes.2 [0x05] (by decide) (by decide)

/-- C3: `read_byte_and_check_continuation` on a one-byte stream returns
the byte's low 7 bits and its high bit as continuation flag, fails on an
empty stream, and on `[0b10101010]` returns `(42, true)` while on
`[0b01010101]` it returns `(85, false)`. -/
theorem C3_read_byte_and_check_continuation :
    (∀ b rest, b < 256 →
      read_byte_and_check_continuation (b :: rest) =
        .ok ((b % 128, b.testBit 7), rest)) ∧
    read_byte_and_check_continuation [] = .error .truncatedStream ∧
    read_byte_and_check_continuation [0b10101010] = .ok ((42, true), []) ∧
    read_byte_and_check_continuation [0b01010101] = .ok ((85, false), []) := by
  refine ⟨?_, rfl, by decide, by decide⟩
  intro b rest hb
  have h := byte_low_bits b hb
  simp only [read_byte_and_check_continuation, h.1, h.2]

/-- Witness for C3 at a concrete input. -/
theorem C3_witness :
    read_byte_and_check_continuation [0xAA] =
      .ok ((0xAA % 128, (0xAA : Nat).testBit 7), []) :=
  C3_read_byte_and_check_continuation.1 0xAA [] (by decide)

/-- C4: `read_type_and_varint_size` takes the first byte's bits 4..6 as
the 3-bit type and its low 4 bits as the size seed; while the continuation
bit is set it folds each later byte's 7-bit group into the size at shifts
4, 11, 18, … and the offset grows by exactly the number of bytes
consumed. -/
theorem C4_read_type_and_varint_size (offset : Nat) :
    (∀ b0 rest, b0 < 128 →
      read_type_and_varint_size (b0 :: rest) offset =
        .ok (b0 / 16 % 8, b0 % 16, offset + 1)) ∧
    (∀ b0 bs, 128 ≤ b0 → b0 < 256 → varint_wf bs → (∀ b ∈ bs, b < 256) →
      bs.length ≤ 8 →
      read_type_and_varint_size (b0 :: bs) offset =
        .ok (b0 / 16 % 8, b0 % 16 + 16 * varint_value_spec bs,
             offset + 1 + bs.length)) := by
  constructor
  · intro b0 rest hb0
    have hty := byte_type_bits b0 (by omega)
    simp only [read_type_and_varint_size, read_byte_and_check_continuation]
    rw [decide_eq_false (by omega : ¬ 128 ≤ b0)]
    simp only [read_type_size_loop, hty.1, hty.2]
  · intro b0 bs hb0 hb256 hwf hrange hlen
    have hty := byte_type_bits b0 hb256
    simp only [read_type_and_varint_size, read_byte_and_check_continuation]
    rw [decide_eq_true hb0]
    rw [read_type_size_loop_decode bs _ 4 (offset + 1) hwf hrange (by omega)
      (by rw [hty.2]; omega)]
    simp only [hty.1, hty.2]
    norm_num
    ring

/-- Witness for C4 at a concrete input: header byte `0b11010101` then
`0b00000011` gives type 5, size 53, two bytes consumed. -/
theorem C4_witness :
    read_type_and_varint_size [0b11010101, 0b00000011] 0 = .ok (5, 53, 2) := by
  have h := (C4_read_type_and_varint_size 0).2 0b11010101 [0b00000011]
    (by decide) (by decide) (by decide) (by decide) (by decide)
  rw [h]
  decide

end Mega

namespace Mega

/-! ## Pack object cache (mercury/src/internal/pack/cache.rs) -/

/-- SHA1 digests abstracted as natural numbers. -/
abbrev SHA1 := Nat

/-- venus `ObjectType` (external crate): only its identity matters here. -/
inductive ObjectType where
  | commit
  | tree
  | blob
  | tag
  | ofsDelta
  | refDelta
  deriving DecidableEq, Repr

/-- `CacheObject`, the transient decode record of cache.rs. -/
structure CacheObject where
  base_offset : Nat
  base_ref : SHA1
  data_decompress : List Nat
  object_type : ObjectType
  offset : Nat
  hash : SHA1
  deriving DecidableEq, Repr

/-- A `panic!`/`unimplemented!()` outcome. -/
inductive PanicKind where
  | unimplemented
  deriving DecidableEq, Repr

/-- `Caches`: `map_offset` is the `DashMap<usize, SHA1>` (as an association
list whose most recent insertion shadows older entries), `map_hash` the
`HashMap<SHA1, Arc<CacheObject>>`. -/
structure Caches where
  map_offset : List (Nat × SHA1)
  map_hash : List (SHA1 × CacheObject)
  mem_size : Nat
  tmp_path : List String
  deriving DecidableEq, Repr

/-- `Caches::new`. -/
def Caches.new (size : Option Nat) (tmp_path : Option (List String)) : Caches :=
  { map_offset := [], map_hash := [], mem_size := size.getD 0,
    tmp_path := tmp_path.getD [] }

/-- `Caches::get_hash`: `self.map_offset.get(&offset).map(|x| *x)`. -/
def Caches.get_hash (c : Caches) (offset : Nat) : Option SHA1 :=
  c.map_offset.lookup offset

/-- `Caches::insert`: inserts into `map_offset`, then hits
`unimplemented!()`.  The returned state carries the partial mutation
(DashMap insertion happens before the panic) and the panic is reported;
`obj` is dropped without ever reaching `map_hash`. -/
def Caches.insert (c : Caches) (offset : Nat) (hash : SHA1) (_obj : CacheObject) :
    Caches × Option PanicKind :=
  ({ c with map_offset := (offset, hash) :: c.map_offset }, some .unimplemented)

/-- `Caches::get_by_hash`: `unimplemented!()` — always panics. -/
def Caches.get_by_hash (_c : Caches) (_hash : SHA1) :
    Except PanicKind (Option CacheObject) :=
  .error .unimplemented

/-- `Caches::get_by_offset`: a hit in `map_offset` delegates to
`get_by_hash`; a miss returns `None` immediately. -/
def Caches.get_by_offset (c : Caches) (offset : Nat) :
    Except PanicKind (Option CacheObject) :=
  match c.map_offset.lookup offset with
  | some x => c.get_by_hash x
  | none => .ok none

/-- C8 (code is stubbed): `insert` reaches `unimplemented!()` after
registering only the offset→hash mapping, and `get_by_hash` panics
unconditionally, so the claimed post-state — both lookups returning the
inserted object — is unreachable in the source as written. -/
theorem C8_insert_stub_panics (c : Caches) (offset : Nat) (hash : SHA1)
    (obj : CacheObject) :
    (c.insert offset hash obj).2 = some .unimplemented ∧
    (c.insert offset hash obj).1.map_offset.lookup offset = some hash ∧
    c.get_by_hash hash = .error .unimplemented := by
  refine ⟨rfl, ?_, rfl⟩
  simp [Caches.insert, List.lookup]

/-- C10: a `get_by_offset` miss — an offset absent from `map_offset` —
returns `None` without consulting `get_by_hash`/`map_hash` at all, so it
cannot panic even though `get_by_hash` is a stub that always does. -/
theorem C10_get_by_offset_miss (c : Caches) (offset : Nat)
    (h : c.map_offset.lookup offset = none) :
    c.get_by_offset offset = .ok none := by
  simp [Caches.get_by_offset, h]

/-- Witness for C10: a miss on the fresh cache. -/
theorem C10_witness : (Caches.new none none).get_by_offset 10 = .ok none :=
  C10_get_by_offset_miss (Caches.new none none) 10 rfl

/-! ## Repository-root discovery (libra/src/utils/util.rs) -/

/-- `ROOT_DIR`, the repository marker directory name. -/
def ROOT_DIR : String := ".libra"

/-- `try_get_storage_path`, with the ambient filesystem (the set of
existing paths, each a list of components from the root) and the process
current directory made explicit parameters: starting at `cur_dir`, check
`cur_dir/.libra`, and on failure pop the last component until the
filesystem root, where the search gives up. -/
def try_get_storage_path (fs : List (List String)) (cur_dir : List String) :
    Option (List String) :=
  let libra := cur_dir ++ [ROOT_DIR]
  if libra ∈ fs then some libra
  else if h : cur_dir = [] then none
  else try_get_storage_path fs cur_dir.dropLast
termination_by cur_dir.length
decreasing_by
  cases cur_dir with
  | nil => exact absurd rfl h
  | cons x xs => simp [List.length_dropLast]

/-- Unfolding: the marker is found at `cur_dir` itself. -/
theorem try_get_storage_path_found (fs : List (List String))
    (cur_dir : List String) (h : cur_dir ++ [ROOT_DIR] ∈ fs) :
    try_get_storage_path fs cur_dir = some (cur_dir ++ [ROOT_DIR]) := by
  rw [try_get_storage_path, if_pos h]

/-- Unfolding: no marker at the filesystem root ends the search. -/
theorem try_get_storage_path_nil (fs : List (List String))
    (h : [ROOT_DIR] ∉ fs) : try_get_storage_path fs [] = none := by
  rw [try_get_storage_path]
  simp [h]

/-- Unfolding: no marker at `ys ++ [y]` pops to `ys`. -/
theorem try_get_storage_path_snoc (fs : List (List String))
    (ys : List String) (y : String) (h : (ys ++ [y]) ++ [ROOT_DIR] ∉ fs) :
    try_get_storage_path fs (ys ++ [y]) = try_get_storage_path fs ys := by
  rw [try_get_storage_path, if_neg h, dif_neg (by simp), List.dropLast_concat]

/-- The search returns `none` exactly when no ancestor of the start
directory contains the marker. -/
theorem try_get_storage_path_none_iff (fs : List (List String))
    (start : List String) :
    try_get_storage_path fs start = none ↔
      ∀ p, p <+: start → p ++ [ROOT_DIR] ∉ fs := by
  induction start using List.reverseRecOn with
  | nil =>
    by_cases h : [] ++ [ROOT_DIR] ∈ fs
    · rw [try_get_storage_path_found fs [] h]
      constructor
      · intro hc; exact absurd hc (by simp)
      · intro hall; exact absurd h (hall [] List.prefix_rfl)
    · rw [try_get_storage_path_nil fs (by simpa using h)]
      constructor
      · intro _ p hp
        rw [List.prefix_nil.mp hp]
        simpa using h
      · intro _; rfl
  | append_singleton ys y ih =>
    by_cases h : (ys ++ [y]) ++ [ROOT_DIR] ∈ fs
    · rw [try_get_storage_path_found fs (ys ++ [y]) h]
      constructor
      · intro hc; exact absurd hc (by simp)
      · intro hall; exact absurd h (hall (ys ++ [y]) List.prefix_rfl)
    · rw [try_get_storage_path_snoc fs ys y h, ih]
      constructor
      · intro hall p hp
        rcases List.prefix_concat_iff.mp hp with he | hp'
        · rw [he]; exact h
        · exact hall p hp'
      · intro hall p hp
        exact hall p (hp.trans (List.prefix_append ys [y]))

/-- A successful search returns the marker directory of the nearest
(longest-prefix) ancestor containing it. -/
theorem try_get_storage_path_some (fs : List (List String))
    (start : List String) :
    ∀ q, try_get_storage_path fs start = some q →
      ∃ p, p <+: start ∧ q = p ++ [ROOT_DIR] ∧ p ++ [ROOT_DIR] ∈ fs ∧
        ∀ p', p' <+: start → p.length < p'.length → p' ++ [ROOT_DIR] ∉ fs := by
  induction start using List.reverseRecOn with
  | nil =>
    intro q hq
    by_cases h : [] ++ [ROOT_DIR] ∈ fs
    · rw [try_get_storage_path_found fs [] h] at hq
      refine ⟨[], List.prefix_rfl, (Option.some.inj hq).symm, h, ?_⟩
      intro p' hp' hlt
      rw [List.prefix_nil.mp hp'] at hlt
      exact absurd hlt (by simp)
    · rw [try_get_storage_path_nil fs (by simpa using h)] at hq
      exact absurd hq (by simp)
  | append_singleton ys y ih =>
    intro q hq
    by_cases h : (ys ++ [y]) ++ [ROOT_DIR] ∈ fs
    · rw [try_get_storage_path_found fs (ys ++ [y]) h] at hq
      refine ⟨ys ++ [y], List.prefix_rfl, (Option.some.inj hq).symm, h, ?_⟩
      intro p' hp' hlt
      exact absurd (lt_of_lt_of_le hlt hp'.length_le) (by simp)
    · rw [try_get_storage_path_snoc fs ys y h] at hq
      obtain ⟨p, hpre, hqe, hin, hmin⟩ := ih q hq
      refine ⟨p, hpre.trans (List.prefix_append ys [y]), hqe, hin, ?_⟩
      intro p' hp' hlt
      rcases List.prefix_concat_iff.mp hp' with he | hp''
      · rw [he]; exact h
      · exact hmin p' hp'' hlt

/-- C9: repository-root discovery is a pure upward search over an explicit
filesystem: it returns `none` exactly when no ancestor of the start
directory contains the `.libra` marker, and a successful result is the
marker directory of the nearest (longest-prefix) ancestor containing
it — no nearer ancestor contains the marker. -/
theorem C9_repository_root_discovery (fs : List (List String))
    (start : List String) :
    (try_get_storage_path fs start = none ↔
      ∀ p, p <+: start → p ++ [ROOT_DIR] ∉ fs) ∧
    (∀ q, try_get_storage_path fs start = some q →
      ∃ p, p <+: start ∧ q = p ++ [ROOT_DIR] ∧ p ++ [ROOT_DIR] ∈ fs ∧
        ∀ p', p' <+: start → p.length < p'.length → p' ++ [ROOT_DIR] ∉ fs) :=
  ⟨try_get_storage_path_none_iff fs start, try_get_storage_path_some fs start⟩

/-- Witness for C9: in a filesystem where both `/home/.libra` and
`/home/user/proj/.libra` exist, searching from `/home/user/proj/sub`
finds the nearest marker `/home/user/proj/.libra`. -/
theorem C9_witness :
    ∃ p, p <+: ["home", "user", "proj", "sub"] ∧
      ["home", "user", "proj", ".libra"] = p ++ [ROOT_DIR] ∧
      p ++ [ROOT_DIR] ∈
        [["home", ".libra"], ["home", "user", "proj", ".libra"],
         ["home", "user", "proj", "sub", "file.txt"]] ∧
      ∀ p', p' <+: ["home", "user", "proj", "sub"] → p.length < p'.length →
        p' ++ [ROOT_DIR] ∉
          [["home", ".libra"], ["home", "user", "proj", ".libra"],
           ["home", "user", "proj", "sub", "file.txt"]] := by
  have hstep :
      try_get_storage_path
        [["home", ".libra"], ["home", "user", "proj", ".libra"],
         ["home", "user", "proj", "sub", "file.txt"]]
        (["home", "user", "proj"] ++ ["sub"]) =
      some ["home", "user", "proj", ".libra"] := by
    rw [try_get_storage_path_snoc _ _ _ (by decide)]
    exact try_get_storage_path_found _ _ (by decide)
  exact (C9_repository_root_discovery _ ["home", "user", "proj", "sub"]).2
    ["home", "user", "proj", ".libra"] hstep

end Mega

namespace Mega

/-! ## Tree builder (libra/src/command/commit.rs) -/

/-- A tracked index entry (stage 0): path name with '/' separators, file
mode bits, and the blob hash recorded by `add`. -/
structure IndexEntry where
  name : String
  mode : Nat
  hash : SHA1
  deriving DecidableEq, Repr

/-- venus `TreeItemMode` (external crate): the four recognized kinds. -/
inductive TreeItemMode where
  | blob
  | blobExecutable
  | link
  | tree
  deriving DecidableEq, Repr

/-- `format!("{:o}", mode)`: octal rendering of a mode. -/
def octal_string (n : Nat) : String := String.mk (Nat.toDigits 8 n)

/-- Modelled from the spec: venus
`TreeItemMode::tree_item_type_from_bytes`, mapping the octal mode strings
of the four recognized kinds; a path entry whose file mode cannot be
normalized fails (`UnsupportedMode` in the spec's taxonomy). -/
def tree_item_type_from_bytes (s : String) : Option TreeItemMode :=
  if s = "40000" then some .tree
  else if s = "100644" then some .blob
  else if s = "100755" then some .blobExecutable
  else if s = "120000" then some .link
  else none

/-- venus `TreeItem`. -/
structure TreeItem where
  name : String
  mode : TreeItemMode
  id : SHA1
  deriving DecidableEq, Repr

/-- venus `Tree`: its content hash and its entries. -/
structure Tree where
  id : SHA1
  tree_items : List TreeItem
  deriving DecidableEq, Repr

/-- Modelled from the spec: a deterministic digest of a string (stands in
for the canonical byte encoding feeding SHA-1). -/
def hash_string (s : String) : Nat :=
  s.data.foldl (fun a c => a * 1114112 + (c.toNat + 1)) 0

/-- Numeric tag of a `TreeItemMode` for the modelled digest. -/
def hash_mode : TreeItemMode → Nat
  | .blob => 0
  | .blobExecutable => 1
  | .link => 2
  | .tree => 3

/-- Modelled from the spec: combining step of the deterministic digest. -/
def combine (a x : Nat) : Nat := a * 1000003 + x + 1

/-- Modelled from the spec: `compute_id` for a Tree — a deterministic,
pure digest of the canonical (sorted) entry sequence. -/
def tree_hash (items : List TreeItem) : SHA1 :=
  items.foldl
    (fun a it => combine a (combine (combine (hash_string it.name) (hash_mode it.mode)) it.id)) 7

/-- Lexicographic comparison of names by character code (the canonical
sort order of Tree entries). -/
def char_list_lt : List Char → List Char → Bool
  | [], [] => false
  | [], _ :: _ => true
  | _ :: _, [] => false
  | a :: as, b :: bs => if a < b then true else if b < a then false else char_list_lt as bs

/-- Name order for Tree entries. -/
def name_lt (s t : String) : Bool := char_list_lt s.data t.data

/-- Insert one item into a name-sorted item list. -/
def insert_item (it : TreeItem) : List TreeItem → List TreeItem
  | [] => [it]
  | x :: xs => if name_lt it.name x.name then it :: x :: xs else x :: insert_item it xs

/-- Insertion sort of Tree items by name. -/
def sort_items : List TreeItem → List TreeItem
  | [] => []
  | x :: xs => insert_item x (sort_items xs)

/-- Failure outcomes of tree construction: `DuplicateEntry` and
`UnsupportedMode` from the spec's taxonomy, plus the `unwrap` panics of
commit.rs (absent index entry, degenerate path) and the recursion-depth
guard. -/
inductive TreeBuildError where
  | duplicateEntry
  | unsupportedMode
  | missingEntry
  | emptyPath
  | stackOverflow
  deriving DecidableEq, Repr

/-- Modelled from the spec: venus `Tree::from_tree_items` — entries are
produced sorted by name, duplicate names are rejected with
`DuplicateEntry`, and the Tree's id is the content hash of the canonical
entry sequence. -/
def from_tree_items (items : List TreeItem) : Except TreeBuildError Tree :=
  if (items.map (fun it => it.name)).Nodup then
    .ok { id := tree_hash (sort_items items), tree_items := sort_items items }
  else
    .error .duplicateEntry

/-- Splitting a path's characters at '/' (the component view of
`PathBuf::from(name)`). -/
def split_components : List Char → List Char → List String
  | [], acc => [String.mk acc.reverse]
  | c :: cs, acc =>
    if c = '/' then String.mk acc.reverse :: split_components cs []
    else split_components cs (c :: acc)

/-- `PathBuf::components` of an index entry name; the empty string is the
empty path (the root `""`). -/
def path_components (s : String) : List String :=
  if s = "" then [] else split_components s.data []

/-- `util::path_to_string`: join components with '/'. -/
def path_to_string : List String → String
  | [] => ""
  | [x] => x
  | x :: xs => x ++ "/" ++ path_to_string xs

/-- `get_blob_entry` of `create_tree`: look the path up in the index,
take the file name as entry name, normalize the mode. -/
def get_blob_entry (index : List IndexEntry) (path : List String) :
    Except TreeBuildError TreeItem :=
  let name := path_to_string path
  match index.find? (fun e => e.name == name) with
  | none => .error .missingEntry
  | some mete =>
    match path.getLast? with
    | none => .error .emptyPath
    | some filename =>
      match tree_item_type_from_bytes (octal_string mete.mode) with
      | none => .error .unsupportedMode
      | some mode => .ok { name := filename, mode := mode, id := mete.hash }

/-- The entry loop of `create_tree`: walk the filtered paths in index
order; a path whose parent is the current root contributes a blob entry;
a deeper path contributes, once per distinct next component
(`processed` is the `processed_path` set), a sub-tree built by `recur`
(the recursive `create_tree` call) plus a `Tree`-mode entry named after
that component.  The second component is the write log of `storage.put`
calls, in order. -/
def create_tree_loop
    (recur : List String → (Except TreeBuildError Tree) × List Tree)
    (index : List IndexEntry) (current_root : List String) :
    List (List String) → List String → List TreeItem →
      (Except TreeBuildError (List TreeItem)) × List Tree
  | [], _, items => (.ok items, [])
  | [] :: _, _, _ => (.error .emptyPath, [])
  | (q :: qs) :: rest, processed, items =>
    if (q :: qs).dropLast = current_root then
      match get_blob_entry index (q :: qs) with
      | .error e => (.error e, [])
      | .ok item =>
        create_tree_loop recur index current_root rest processed (items ++ [item])
    else if (q :: qs).length = 1 then
      create_tree_loop recur index current_root rest processed items
    else
      match (q :: qs).get? current_root.length with
      | none => (.error .emptyPath, [])
      | some seg =>
        if seg ∈ processed then
          create_tree_loop recur index current_root rest processed items
        else
          match recur (current_root ++ [seg]) with
          | (.error e, slog) => (.error e, slog)
          | (.ok sub, slog) =>
            let r := create_tree_loop recur index current_root rest (seg :: processed)
              (items ++ [{ name := seg, mode := .tree, id := sub.id }])
            (r.1, slog ++ r.2)

/-- `create_tree` (commit.rs): filter the tracked entries to those under
the current root, build the item list via the entry loop (recursing with
one unit less fuel — the fuel models the recursion-depth guard of the
spec), assemble and hash the Tree, and append its own `storage.put` as
the last entry of the write log. -/
def create_tree (fuel : Nat) (index : List IndexEntry)
    (current_root : List String) : (Except TreeBuildError Tree) × List Tree :=
  match fuel with
  | 0 => (.error .stackOverflow, [])
  | fuel + 1 =>
    let path_entries := (index.map (fun e => path_components e.name)).filter
      (fun p => current_root.isPrefixOf p)
    match create_tree_loop (fun r => create_tree fuel index r) index
        current_root path_entries [] [] with
    | (.error e, log) => (.error e, log)
    | (.ok items, log) =>
      match from_tree_items items with
      | .error e => (.error e, log)
      | .ok tree => (.ok tree, log ++ [tree])

end Mega

namespace Mega

/-- The index entry modes all normalize to non-`Tree` kinds (blob,
executable, symlink) — the shape `add` produces for tracked files. -/
def blob_modes_only (index : List IndexEntry) : Prop :=
  ∀ e ∈ index, tree_item_type_from_bytes (octal_string e.mode) ≠ some TreeItemMode.tree

instance : DecidablePred blob_modes_only := fun index =>
  List.decidableBAll _ index

/-- The write log is hash-closed given already-present ids `seen`: each
written Tree references (with `Tree` mode) only ids among `seen` or ids of
Trees written strictly earlier in the log. -/
def tree_refs_closed_from (seen : List SHA1) : List Tree → Prop
  | [] => True
  | t :: ts =>
    (∀ item ∈ t.tree_items, item.mode = TreeItemMode.tree → item.id ∈ seen) ∧
    tree_refs_closed_from (t.id :: seen) ts

instance tree_refs_closed_from_dec :
    ∀ (seen : List SHA1) (log : List Tree), Decidable (tree_refs_closed_from seen log)
  | _, [] => isTrue trivial
  | seen, t :: ts =>
    @instDecidableAnd _ _ (List.decidableBAll _ t.tree_items)
      (tree_refs_closed_from_dec (t.id :: seen) ts)

/-- Children-before-parent write order: no Tree is stored while a `Tree`
id it references is still absent from the store. -/
def tree_refs_closed (log : List Tree) : Prop := tree_refs_closed_from [] log

instance : DecidablePred tree_refs_closed := fun log =>
  tree_refs_closed_from_dec [] log

/-- Enlarging the already-present set preserves closure. -/
theorem tree_refs_closed_from_mono :
    ∀ (log : List Tree) (seen seen' : List SHA1), (∀ x ∈ seen, x ∈ seen') →
      tree_refs_closed_from seen log → tree_refs_closed_from seen' log := by
  intro log
  induction log with
  | nil => intro _ _ _ _; trivial
  | cons t ts ih =>
    intro seen seen' hsub h
    refine ⟨fun item hm ht => hsub _ (h.1 item hm ht), ?_⟩
    refine ih (t.id :: seen) (t.id :: seen') ?_ h.2
    intro x hx
    rcases List.mem_cons.mp hx with hx | hx
    · exact hx ▸ List.mem_cons_self _ _
    · exact List.mem_cons_of_mem _ (hsub _ hx)

/-- Concatenating two logs preserves closure when the second is closed
relative to the ids written by the first. -/
theorem tree_refs_closed_from_append :
    ∀ (l1 l2 : List Tree) (seen : List SHA1),
      tree_refs_closed_from seen l1 →
      tree_refs_closed_from ((l1.map (fun t => t.id)).reverse ++ seen) l2 →
      tree_refs_closed_from seen (l1 ++ l2) := by
  intro l1
  induction l1 with
  | nil => intro l2 seen _ h2; simpa using h2
  | cons a l1 ih =>
    intro l2 seen h1 h2
    refine ⟨h1.1, ?_⟩
    refine ih l2 (a.id :: seen) h1.2 ?_
    have he : ((a :: l1).map (fun t => t.id)).reverse ++ seen =
        (l1.map (fun t => t.id)).reverse ++ (a.id :: seen) := by
      simp [List.map_cons, List.reverse_cons, List.append_assoc]
    rw [he] at h2
    exact h2

/-- A closed log stays closed when a Tree whose `Tree`-mode references all
resolve inside the log is appended at the end. -/
theorem tree_refs_closed_snoc (l : List Tree) (t : Tree)
    (hl : tree_refs_closed l)
    (ht : ∀ item ∈ t.tree_items, item.mode = TreeItemMode.tree →
      ∃ w ∈ l, w.id = item.id) :
    tree_refs_closed (l ++ [t]) := by
  refine tree_refs_closed_from_append l [t] [] hl ⟨?_, trivial⟩
  intro item hm hmode
  obtain ⟨w, hw, hid⟩ := ht item hm hmode
  refine List.mem_append_left _ ?_
  rw [List.mem_reverse]
  exact List.mem_map.mpr ⟨w, hw, hid⟩

/-- A log closed on its own is closed relative to any present set. -/
theorem tree_refs_closed_from_of_closed (l : List Tree) (seen : List SHA1)
    (h : tree_refs_closed l) : tree_refs_closed_from seen l :=
  tree_refs_closed_from_mono l [] seen (by intro x hx; cases hx) h

/-- Membership is invariant under `insert_item`. -/
theorem mem_insert_item {a it : TreeItem} :
    ∀ {l : List TreeItem}, a ∈ insert_item it l ↔ a = it ∨ a ∈ l := by
  intro l
  induction l with
  | nil => simp [insert_item]
  | cons x xs ih =>
    rw [insert_item]
    by_cases h : name_lt it.name x.name = true
    · rw [if_pos h]
      simp [List.mem_cons]
    · rw [if_neg h]
      simp only [List.mem_cons, ih]
      tauto

/-- Membership is invariant under `sort_items`. -/
theorem mem_sort_items {a : TreeItem} :
    ∀ {l : List TreeItem}, a ∈ sort_items l ↔ a ∈ l := by
  intro l
  induction l with
  | nil => simp [sort_items]
  | cons x xs ih =>
    rw [sort_items]
    rw [mem_insert_item]
    simp [List.mem_cons, ih]

/-- A blob entry produced by `get_blob_entry` on a blob-modes-only index
never has `Tree` mode. -/
theorem get_blob_entry_mode (index : List IndexEntry) (path : List String)
    (item : TreeItem) (hmode : blob_modes_only index)
    (h : get_blob_entry index path = .ok item) : item.mode ≠ TreeItemMode.tree := by
  unfold get_blob_entry at h
  cases hfind : index.find? (fun e => e.name == path_to_string path) with
  | none => simp [hfind] at h
  | some mete =>
    cases hlast : path.getLast? with
    | none => simp [hfind, hlast] at h
    | some filename =>
      cases htype : tree_item_type_from_bytes (octal_string mete.mode) with
      | none => simp [hfind, hlast, htype] at h
      | some m =>
        simp only [hfind, hlast, htype] at h
        have hmem : mete ∈ index := List.mem_of_find?_eq_some hfind
        have hitem : item = { name := filename, mode := m, id := mete.hash } :=
          (Except.ok.inj h).symm
        rw [hitem]
        intro hc
        exact hmode mete hmem (by rw [htype]; exact congrArg some hc)

end Mega

namespace Mega

/-! Step equations for `create_tree_loop` and `create_tree`. -/

theorem loop_nil (recur) (index : List IndexEntry) (root processed : List String)
    (items : List TreeItem) :
    create_tree_loop recur index root [] processed items = (.ok items, []) := rfl

theorem loop_empty_path (recur) (index : List IndexEntry)
    (root : List String) (rest : List (List String)) (processed : List String)
    (items : List TreeItem) :
    create_tree_loop recur index root ([] :: rest) processed items =
      (.error .emptyPath, []) := rfl

theorem loop_blob_err (recur) (index : List IndexEntry) (root : List String)
    (q : String) (qs : List String) (rest : List (List String))
    (processed : List String) (items : List TreeItem) (e : TreeBuildError)
    (h1 : (q :: qs).dropLast = root)
    (hbe : get_blob_entry index (q :: qs) = .error e) :
    create_tree_loop recur index root ((q :: qs) :: rest) processed items =
      (.error e, []) := by
  rw [create_tree_loop, if_pos h1, hbe]

theorem loop_blob_ok (recur) (index : List IndexEntry) (root : List String)
    (q : String) (qs : List String) (rest : List (List String))
    (processed : List String) (items : List TreeItem) (item0 : TreeItem)
    (h1 : (q :: qs).dropLast = root)
    (hbe : get_blob_entry index (q :: qs) = .ok item0) :
    create_tree_loop recur index root ((q :: qs) :: rest) processed items =
      create_tree_loop recur index root rest processed (items ++ [item0]) := by
  rw [create_tree_loop, if_pos h1, hbe]

theorem loop_single (recur) (index : List IndexEntry) (root : List String)
    (q : String) (qs : List String) (rest : List (List String))
    (processed : List String) (items : List TreeItem)
    (h1 : ¬ (q :: qs).dropLast = root) (h2 : (q :: qs).length = 1) :
    create_tree_loop recur index root ((q :: qs) :: rest) processed items =
      create_tree_loop recur index root rest processed items := by
  rw [create_tree_loop, if_neg h1, if_pos h2]

theorem loop_seg_none (recur) (index : List IndexEntry) (root : List String)
    (q : String) (qs : List String) (rest : List (List String))
    (processed : List String) (items : List TreeItem)
    (h1 : ¬ (q :: qs).dropLast = root) (h2 : ¬ (q :: qs).length = 1)
    (hseg : (q :: qs).get? root.length = none) :
    create_tree_loop recur index root ((q :: qs) :: rest) processed items =
      (.error .emptyPath, []) := by
  rw [create_tree_loop, if_neg h1, if_neg h2, hseg]

theorem loop_seg_processed (recur) (index : List IndexEntry)
    (root : List String) (q : String) (qs : List String)
    (rest : List (List String)) (processed : List String)
    (items : List TreeItem) (seg : String)
    (h1 : ¬ (q :: qs).dropLast = root) (h2 : ¬ (q :: qs).length = 1)
    (hseg : (q :: qs).get? root.length = some seg) (hp : seg ∈ processed) :
    create_tree_loop recur index root ((q :: qs) :: rest) processed items =
      create_tree_loop recur index root rest processed items := by
  rw [create_tree_loop, if_neg h1, if_neg h2, hseg]
  simp only [if_pos hp]

theorem loop_seg_err (recur) (index : List IndexEntry) (root : List String)
    (q : String) (qs : List String) (rest : List (List String))
    (processed : List String) (items : List TreeItem) (seg : String)
    (e : TreeBuildError) (slog : List Tree)
    (h1 : ¬ (q :: qs).dropLast = root) (h2 : ¬ (q :: qs).length = 1)
    (hseg : (q :: qs).get? root.length = some seg) (hp : seg ∉ processed)
    (hrec : recur (root ++ [seg]) = (.error e, slog)) :
    create_tree_loop recur index root ((q :: qs) :: rest) processed items =
      (.error e, slog) := by
  rw [create_tree_loop, if_neg h1, if_neg h2, hseg]
  simp only [if_neg hp, hrec]

theorem loop_seg_ok (recur) (index : List IndexEntry) (root : List String)
    (q : String) (qs : List String) (rest : List (List String))
    (processed : List String) (items : List TreeItem) (seg : String)
    (sub : Tree) (slog : List Tree)
    (h1 : ¬ (q :: qs).dropLast = root) (h2 : ¬ (q :: qs).length = 1)
    (hseg : (q :: qs).get? root.length = some seg) (hp : seg ∉ processed)
    (hrec : recur (root ++ [seg]) = (.ok sub, slog)) :
    create_tree_loop recur index root ((q :: qs) :: rest) processed items =
      ((create_tree_loop recur index root rest (seg :: processed)
          (items ++ [{ name := seg, mode := .tree, id := sub.id }])).1,
       slog ++ (create_tree_loop recur index root rest (seg :: processed)
          (items ++ [{ name := seg, mode := .tree, id := sub.id }])).2) := by
  rw [create_tree_loop, if_neg h1, if_neg h2, hseg]
  simp only [if_neg hp, hrec]

theorem create_tree_zero (index : List IndexEntry) (root : List String) :
    create_tree 0 index root = (.error .stackOverflow, []) := rfl

/-- One-step unfolding of `create_tree` at positive fuel. -/
theorem create_tree_succ_eq (fuel : Nat) (index : List IndexEntry)
    (root : List String) :
    create_tree (fuel + 1) index root =
      match create_tree_loop (fun r => create_tree fuel index r) index root
          ((index.map (fun e => path_components e.name)).filter
            (fun p => root.isPrefixOf p)) [] [] with
      | (.error e, log) => (.error e, log)
      | (.ok items, log) =>
        match from_tree_items items with
        | .error e => (.error e, log)
        | .ok tree => (.ok tree, log ++ [tree]) := rfl

end Mega

namespace Mega

/-- Invariant of the entry loop: when the recursive call yields hash-closed
logs and, on success, a log containing a write of the returned tree's id,
then the loop's own log is hash-closed, and every `Tree`-mode item of a
successful result is either carried over from the initial accumulator or
has its id written somewhere in the loop's log. -/
theorem create_tree_loop_invariant
    (recur : List String → (Except TreeBuildError Tree) × List Tree)
    (index : List IndexEntry) (root : List String)
    (hmode : blob_modes_only index)
    (hrc : ∀ r, tree_refs_closed (recur r).2)
    (hro : ∀ r t, (recur r).1 = .ok t → ∃ w ∈ (recur r).2, w.id = t.id) :
    ∀ (paths : List (List String)) (processed : List String)
      (items : List TreeItem),
      tree_refs_closed (create_tree_loop recur index root paths processed items).2 ∧
      (∀ items',
        (create_tree_loop recur index root paths processed items).1 = .ok items' →
        ∀ item ∈ items', item.mode = TreeItemMode.tree →
          item ∈ items ∨
          ∃ w ∈ (create_tree_loop recur index root paths processed items).2,
            w.id = item.id) := by
  intro paths
  induction paths with
  | nil =>
    intro processed items
    rw [loop_nil]
    refine ⟨trivial, ?_⟩
    intro items' h item hm _
    exact Or.inl ((Except.ok.inj h) ▸ hm)
  | cons p rest ih =>
    intro processed items
    cases p with
    | nil =>
      rw [loop_empty_path]
      exact ⟨trivial, fun items' h => absurd h (by simp)⟩
    | cons q qs =>
      by_cases h1 : (q :: qs).dropLast = root
      · cases hbe : get_blob_entry index (q :: qs) with
        | error e =>
          rw [loop_blob_err recur index root q qs rest processed items e h1 hbe]
          exact ⟨trivial, fun items' h => absurd h (by simp)⟩
        | ok item0 =>
          rw [loop_blob_ok recur index root q qs rest processed items item0 h1 hbe]
          obtain ⟨ihc, iho⟩ := ih processed (items ++ [item0])
          refine ⟨ihc, ?_⟩
          intro items' h item hm hmt
          rcases iho items' h item hm hmt with hin | hex
          · rcases List.mem_append.mp hin with hin | hin
            · exact Or.inl hin
            · have heq : item = item0 := List.mem_singleton.mp hin
              exact absurd (heq ▸ hmt)
                (get_blob_entry_mode index (q :: qs) item0 hmode hbe)
          · exact Or.inr hex
      · by_cases h2 : (q :: qs).length = 1
        · rw [loop_single recur index root q qs rest processed items h1 h2]
          exact ih processed items
        · cases hseg : (q :: qs).get? root.length with
          | none =>
            rw [loop_seg_none recur index root q qs rest processed items h1 h2 hseg]
            exact ⟨trivial, fun items' h => absurd h (by simp)⟩
          | some seg =>
            by_cases hp : seg ∈ processed
            · rw [loop_seg_processed recur index root q qs rest processed items
                seg h1 h2 hseg hp]
              exact ih processed items
            · cases hrec : recur (root ++ [seg]) with
              | mk res slog =>
                cases res with
                | error e =>
                  rw [loop_seg_err recur index root q qs rest processed items
                    seg e slog h1 h2 hseg hp hrec]
                  refine ⟨?_, fun items' h => absurd h (by simp)⟩
                  have := hrc (root ++ [seg])
                  rw [hrec] at this
                  exact this
                | ok sub =>
                  rw [loop_seg_ok recur index root q qs rest processed items
                    seg sub slog h1 h2 hseg hp hrec]
                  obtain ⟨ihc, iho⟩ := ih (seg :: processed)
                    (items ++ [{ name := seg, mode := .tree, id := sub.id }])
                  have hslog : tree_refs_closed slog := by
                    have := hrc (root ++ [seg]); rw [hrec] at this; exact this
                  have hsub : ∃ w ∈ slog, w.id = sub.id := by
                    have := hro (root ++ [seg]) sub
                    rw [hrec] at this
                    exact this rfl
                  constructor
                  · refine tree_refs_closed_from_append slog _ [] hslog ?_
                    exact tree_refs_closed_from_of_closed _ _ ihc
                  · intro items' h item hm hmt
                    rcases iho items' h item hm hmt with hin | hex
                    · rcases List.mem_append.mp hin with hin | hin
                      · exact Or.inl hin
                      · have heq : item = { name := seg, mode := .tree, id := sub.id } :=
                          List.mem_singleton.mp hin
                        obtain ⟨w, hw, hid⟩ := hsub
                        refine Or.inr ⟨w, List.mem_append_left _ hw, ?_⟩
                        rw [heq]
                        exact hid
                    · obtain ⟨w, hw, hid⟩ := hex
                      exact Or.inr ⟨w, List.mem_append_right _ hw, hid⟩

end Mega

namespace Mega

theorem create_tree_succ_loop_err (fuel : Nat) (index : List IndexEntry)
    (root : List String) (e : TreeBuildError) (log : List Tree)
    (h : create_tree_loop (fun r => create_tree fuel index r) index root
      ((index.map (fun e => path_components e.name)).filter
        (fun p => root.isPrefixOf p)) [] [] = (.error e, log)) :
    create_tree (fuel + 1) index root = (.error e, log) := by
  have heq := create_tree_succ_eq fuel index root
  rw [h] at heq
  simpa using heq

theorem create_tree_succ_fti_err (fuel : Nat) (index : List IndexEntry)
    (root : List String) (items : List TreeItem) (log : List Tree)
    (e : TreeBuildError)
    (h : create_tree_loop (fun r => create_tree fuel index r) index root
      ((index.map (fun e => path_components e.name)).filter
        (fun p => root.isPrefixOf p)) [] [] = (.ok items, log))
    (hf : from_tree_items items = .error e) :
    create_tree (fuel + 1) index root = (.error e, log) := by
  have heq := create_tree_succ_eq fuel index root
  rw [h] at heq
  simpa [hf] using heq

theorem create_tree_succ_fti_ok (fuel : Nat) (index : List IndexEntry)
    (root : List String) (items : List TreeItem) (log : List Tree)
    (tree : Tree)
    (h : create_tree_loop (fun r => create_tree fuel index r) index root
      ((index.map (fun e => path_components e.name)).filter
        (fun p => root.isPrefixOf p)) [] [] = (.ok items, log))
    (hf : from_tree_items items = .ok tree) :
    create_tree (fuel + 1) index root = (.ok tree, log ++ [tree]) := by
  have heq := create_tree_succ_eq fuel index root
  rw [h] at heq
  simpa [hf] using heq

/-- For every fuel, index and root: the write log of `create_tree` is
hash-closed, and a successful call has written a tree with the returned
tree's id into its log. -/
theorem create_tree_closed :
    ∀ (fuel : Nat) (index : List IndexEntry) (root : List String),
      blob_modes_only index →
      tree_refs_closed (create_tree fuel index root).2 ∧
      (∀ t, (create_tree fuel index root).1 = .ok t →
        ∃ w ∈ (create_tree fuel index root).2, w.id = t.id) := by
  intro fuel
  induction fuel with
  | zero =>
    intro index root _
    rw [create_tree_zero]
    exact ⟨trivial, fun t h => absurd h (by simp)⟩
  | succ fuel ih =>
    intro index root hmode
    have hrc : ∀ r, tree_refs_closed (create_tree fuel index r).2 :=
      fun r => (ih index r hmode).1
    have hro : ∀ r t, (create_tree fuel index r).1 = .ok t →
        ∃ w ∈ (create_tree fuel index r).2, w.id = t.id :=
      fun r => (ih index r hmode).2
    obtain ⟨hlc, hlo⟩ := create_tree_loop_invariant
      (fun r => create_tree fuel index r) index root hmode hrc hro
      ((index.map (fun e => path_components e.name)).filter
        (fun p => root.isPrefixOf p)) [] []
    cases hloop : create_tree_loop (fun r => create_tree fuel index r) index root
        ((index.map (fun e => path_components e.name)).filter
          (fun p => root.isPrefixOf p)) [] [] with
    | mk res log =>
      rw [hloop] at hlc hlo
      cases res with
      | error e =>
        rw [create_tree_succ_loop_err fuel index root e log hloop]
        exact ⟨hlc, fun t h => absurd h (by simp)⟩
      | ok items =>
        cases hfti : from_tree_items items with
        | error e =>
          rw [create_tree_succ_fti_err fuel index root items log e hloop hfti]
          exact ⟨hlc, fun t h => absurd h (by simp)⟩
        | ok tree =>
          rw [create_tree_succ_fti_ok fuel index root items log tree hloop hfti]
          have htree_items : tree.tree_items = sort_items items := by
            rw [from_tree_items] at hfti
            by_cases hnd : (items.map (fun it => it.name)).Nodup
            · rw [if_pos hnd] at hfti
              rw [← Except.ok.inj hfti]
            · rw [if_neg hnd] at hfti
              exact absurd hfti (by simp)
          constructor
          · refine tree_refs_closed_snoc log tree hlc ?_
            intro item hm hmt
            rw [htree_items] at hm
            have hin : item ∈ items := mem_sort_items.mp hm
            rcases hlo items rfl item hin hmt with hin0 | hex
            · exact absurd hin0 (List.not_mem_nil item)
            · exact hex
          · intro t h
            have ht : tree = t := Except.ok.inj h
            refine ⟨tree, List.mem_append_right _ (List.mem_singleton_self _), ?_⟩
            rw [ht]

/-- C6: during tree construction over an index whose entry modes are all
non-`Tree` (the shape `add` produces), every constructed sub-Tree is
hashed and persisted strictly before the parent Tree that references its
id: at no point of the write log is a Tree stored while a `Tree`-mode id
it references is still absent from the store. -/
theorem C6_children_before_parent (fuel : Nat) (index : List IndexEntry)
    (root : List String) (hmode : blob_modes_only index) :
    tree_refs_closed (create_tree fuel index root).2 :=
  (create_tree_closed fuel index root hmode).1

/-- The tracked-entry set of the spec's Tree Builder example. -/
def example_index : List IndexEntry :=
  [{ name := "a.txt", mode := 33188, hash := 101 },
   { name := "dir/b.txt", mode := 33188, hash := 102 },
   { name := "dir/sub/c.txt", mode := 33188, hash := 103 }]

/-- Witness for C6: the write order on the example index is hash-closed. -/
theorem C6_witness :
    tree_refs_closed (create_tree 4 example_index []).2 :=
  C6_children_before_parent 4 example_index [] (by decide)

/-- C7: on the tracked-entry set
`{a.txt ↦ blobA, dir/b.txt ↦ blobB, dir/sub/c.txt ↦ blobC}` the builder
persists exactly three Trees — one for `dir/sub`, then one for `dir`,
then the root — so each distinct first-level subdirectory is built
exactly once; the root Tree has exactly the two entries `a.txt` (blob)
and `dir` (tree), `dir` has `b.txt` and `sub`, `dir/sub` has `c.txt`,
and each `Tree`-mode entry's id is the id of the sub-Tree written
earlier. -/
theorem C7_tree_builder_example :
    (create_tree 4 example_index []).2.length = 3 ∧
    (create_tree 4 example_index []).1 =
      .ok ((create_tree 4 example_index []).2.getD 2 { id := 0, tree_items := [] }) ∧
    ((create_tree 4 example_index []).2.getD 2
        { id := 0, tree_items := [] }).tree_items.map
        (fun it => (it.name, it.mode)) =
      [("a.txt", TreeItemMode.blob), ("dir", TreeItemMode.tree)] ∧
    ((create_tree 4 example_index []).2.getD 1
        { id := 0, tree_items := [] }).tree_items.map
        (fun it => (it.name, it.mode)) =
      [("b.txt", TreeItemMode.blob), ("sub", TreeItemMode.tree)] ∧
    ((create_tree 4 example_index []).2.getD 0
        { id := 0, tree_items := [] }).tree_items.map
        (fun it => (it.name, it.mode)) =
      [("c.txt", TreeItemMode.blob)] ∧
    (((create_tree 4 example_index []).2.getD 2
        { id := 0, tree_items := [] }).tree_items.getD 1
        { name := "", mode := .blob, id := 0 }).id =
      ((create_tree 4 example_index []).2.getD 1 { id := 0, tree_items := [] }).id ∧
    (((create_tree 4 example_index []).2.getD 1
        { id := 0, tree_items := [] }).tree_items.getD 1
        { name := "", mode := .blob, id := 0 }).id =
      ((create_tree 4 example_index []).2.getD 0 { id := 0, tree_items := [] }).id := by
  decide

end Mega

namespace Mega

/-- Failure outcomes of the commit operation: the `NothingToCommit`
rejection (a `panic!` with a fatal message in the source, named per the
spec's error taxonomy) or a tree-construction failure. -/
inductive ExecuteError where
  | nothingToCommit
  | treeBuild (e : TreeBuildError)
  deriving DecidableEq, Repr

/-- Modelled from the spec: venus `Commit` — tree reference, parents,
message, and a content-hash id. -/
structure Commit where
  id : SHA1
  tree_id : SHA1
  parents : List SHA1
  message : String
  deriving DecidableEq, Repr

/-- Modelled from the spec: venus `Commit::from_tree_id` with the default
signature; the id is a deterministic digest of the contents. -/
def Commit.from_tree_id (tree_id : SHA1) (parents : List SHA1)
    (message : String) : Commit :=
  { id := combine (parents.foldl combine (combine (hash_string message) tree_id)) 11,
    tree_id := tree_id, parents := parents, message := message }

/-- Recursion bound for the tree build: the longest component path. -/
def max_path_depth (index : List IndexEntry) : Nat :=
  (index.map (fun e => (path_components e.name).length)).foldr max 0

/-- `execute` of the commit command (commit.rs), with ambient state made
explicit: `index` is the tracked-entry set at stage 0 and `parents` the
parent ids resolved from HEAD.  Checks the empty-index guard first, then
builds and persists the tree hierarchy, then creates and persists the
commit.  Returns the outcome and the object-store write log (object ids
in `storage.put` order); the HEAD/reference update is the reference
layer's concern (§6) and carries no object writes. -/
def execute (index : List IndexEntry) (allow_empty : Bool)
    (parents : List SHA1) (message : String) :
    (Except ExecuteError SHA1) × List SHA1 :=
  if index.isEmpty && !allow_empty then
    (.error .nothingToCommit, [])
  else
    match create_tree (max_path_depth index + 1) index [] with
    | (.error e, log) => (.error (.treeBuild e), log.map (fun t => t.id))
    | (.ok tree, log) =>
      let commit := Commit.from_tree_id tree.id parents message
      (.ok commit.id, log.map (fun t => t.id) ++ [commit.id])

/-- C5: a commit invocation with an empty tracked-entry set and no
allow-empty override fails with `NothingToCommit` and writes nothing to
the object store — no tree, no commit, no partial writes. -/
theorem C5_nothing_to_commit (index : List IndexEntry) (allow_empty : Bool)
    (parents : List SHA1) (message : String)
    (hempty : index = []) (hflag : allow_empty = false) :
    execute index allow_empty parents message =
      (.error .nothingToCommit, []) := by
  subst hempty
  subst hflag
  rfl

/-- Witness for C5 at concrete arguments. -/
theorem C5_witness :
    execute [] false [] "msg" = (.error .nothingToCommit, []) :=
  C5_nothing_to_commit [] false [] "msg" rfl rfl

end Mega
